import Mathlib

/-!
Verification development for the agentic demo repository.

The repository's core logic is a deterministic output-normalization pipeline
written in Python.  This file gives a shallow embedding of that pipeline in
Lean 4 and proves (or refutes) the specification's claims about it.

Embedding conventions:
* Python strings are Lean `String`s; most primitives are defined by structural
  recursion over the underlying `List Char` so that every definition is
  executable and kernel-reducible.
* `str.strip()` is modelled with the ASCII whitespace characters Python strips
  (space, tab, newline, carriage return, vertical tab, form feed); exotic
  Unicode whitespace is not modelled.
* `str.splitlines()` is modelled for the line boundaries `\n`, `\r\n` and `\r`;
  the rarer Unicode line boundaries Python also recognizes are not modelled.
* `str.replace(old, new)` is modelled with Python's semantics: replace all
  occurrences, scanning left to right, non-overlapping (callers in the source
  always pass a non-empty `old`).
* Python `int` is modelled by `Int`; `list[:k]` uses Python slice semantics
  including negative bounds.
-/

/-- The ASCII whitespace characters stripped by Python's `str.strip()`. -/
def isPySpace (c : Char) : Bool :=
  c = ' ' || c = '\t' || c = '\n' || c = '\r' || c = '\x0b' || c = '\x0c'

/-- `startsWithChars pat l` is true when `pat` is a prefix of `l`
(Python `str.startswith`, on the character level). -/
def startsWithChars : List Char → List Char → Bool
  | [], _ => true
  | _ :: _, [] => false
  | p :: ps, c :: cs => p = c && startsWithChars ps cs

/-- Python `s.startswith(pre)`. -/
def pyStartsWith (s pre : String) : Bool :=
  startsWithChars pre.data s.data

/-- Strip leading and trailing Python whitespace from a character list
(Python `str.strip()`). -/
def stripChars (l : List Char) : List Char :=
  ((l.dropWhile isPySpace).reverse.dropWhile isPySpace).reverse

/-- Python `s.strip()`. -/
def pyStrip (s : String) : String :=
  ⟨stripChars s.data⟩

/-- Worker for `str.splitlines()` after `\r\n` boundaries have been collapsed
to `\n`: accumulates the current line (reversed) in `acc`, emitting a line at
each single-character boundary.  A trailing line is emitted only when
non-empty accumulation remains, matching Python
(`"a\n".splitlines() == ["a"]`, `"".splitlines() == []`). -/
def pySplitlinesAux : List Char → List Char → List (List Char)
  | [], acc => if acc = [] then [] else [acc.reverse]
  | c :: rest, acc =>
    if c = '\n' || c = '\r' then acc.reverse :: pySplitlinesAux rest []
    else pySplitlinesAux rest (c :: acc)

/-- Fuel-driven worker for Python `str.replace(old, new)`: replaces
occurrences of `old` left to right, non-overlapping.  `fuel` bounds the
recursion; `replaceChars` supplies fuel equal to the input length, which is
always sufficient (callers always pass a non-empty `old`). -/
def replaceFuel (old new : List Char) : Nat → List Char → List Char
  | 0, l => l
  | _ + 1, [] => []
  | fuel + 1, c :: rest =>
    if startsWithChars old (c :: rest) then
      new ++ replaceFuel old new fuel (rest.drop (old.length - 1))
    else
      c :: replaceFuel old new fuel rest

/-- Python `str.replace(old, new)` on character lists (for non-empty `old`). -/
def replaceChars (old new l : List Char) : List Char :=
  replaceFuel old new l.length l

/-- Python `s.replace(old, new)` (for non-empty `old`). -/
def pyReplace (s old new : String) : String :=
  ⟨replaceChars old.data new.data s.data⟩

/-- Python `s.splitlines()` for the `\n`, `\r\n` and `\r` boundaries: every
`\r\n` pair is first collapsed to `\n` (left-to-right replacement consumes
each such pair exactly once, since no pair starts inside another), after
which every remaining boundary is a single character. -/
def pySplitlines (s : String) : List String :=
  (pySplitlinesAux (replaceChars ['\r', '\n'] ['\n'] s.data) []).map String.mk

/-- Locate the first occurrence of `pat` in a character list; returns the text
before it and the text after it.  This is the common core of Python's
`pat in s`, `s.split(pat, 1)` and `re.search` on a literal pattern
(for non-empty `pat`). -/
def splitFirstChars (pat : List Char) : List Char → Option (List Char × List Char)
  | [] => none
  | c :: rest =>
    if startsWithChars pat (c :: rest) then
      some ([], (c :: rest).drop pat.length)
    else
      match splitFirstChars pat rest with
      | some (a, b) => some (c :: a, b)
      | none => none

/-- Python `pat in s` for a non-empty `pat`. -/
def containsSub (s pat : String) : Bool :=
  (splitFirstChars pat.data s.data).isSome

/-- Python slice `l[:k]` for an arbitrary integer bound `k`
(negative bounds count from the end, clamped at zero). -/
def pySliceTo {α : Type} (l : List α) (k : Int) : List α :=
  if 0 ≤ k then l.take k.toNat else l.take (l.length - (-k).toNat)

/-- Python `"\n".join(lines)`. -/
def joinNL : List String → String
  | [] => ""
  | [l] => l
  | l :: ls => l ++ "\n" ++ joinNL ls

/-- Python `s[2:]` generalized: `strDrop s k` drops the first `k` characters. -/
def strDrop (s : String) (k : Nat) : String :=
  ⟨s.data.drop k⟩

/-- The first line of a string: head of `splitlines`, or `""` when there is
none. -/
def firstLine (s : String) : String :=
  (pySplitlines s).headD ""

/-- A character list free of the modelled line-boundary characters. -/
def noLB (l : List Char) : Prop :=
  ∀ c ∈ l, c ≠ '\n' ∧ c ≠ '\r'

instance (l : List Char) : Decidable (noLB l) := by
  unfold noLB; infer_instance

/-- A line is `good` when it is stripped, non-empty and free of line breaks:
exactly the properties every line of a rebuilt output has. -/
def GoodLine (s : String) : Prop :=
  pyStrip s = s ∧ s ≠ "" ∧ noLB s.data

instance (s : String) : Decidable (GoodLine s) := by
  unfold GoodLine; infer_instance

/-! ## Embedding of `src/agents/langchain_gemini_agent.py` (output helpers) -/

/-- Source line 203 (and, identically, `demo.py` line 39):
`lines = [l.strip() for l in (out_str or "").strip().splitlines() if l.strip()]`.
(`out_str or ""` equals `out_str` for every string, since `"" or ""` is `""`.) -/
def pyLines (s : String) : List String :=
  ((pySplitlines (pyStrip s)).map pyStrip).filter (· ≠ "")

/-- Source line 199: `PRICE_RE = re.compile(r"^\$\d[\d,]*\.?\d*$")` — the part
after `\$\d`.  Because `.` is in neither `[\d,]` nor `\d`, the regex engine's
greedy match of `[\d,]*` is maximal-munch and never needs to backtrack, so a
full anchored match exists iff: after dropping the maximal run of digits and
commas, the remainder is empty, or is a dot followed by digits only. -/
def priceTail (cs : List Char) : Bool :=
  let r := cs.dropWhile (fun c => c.isDigit || c = ',')
  r.isEmpty || (decide (r.head? = some '.') && (r.drop 1).all Char.isDigit)

/-- `PRICE_RE.match(l)` as a whole-line test: a dollar sign, a digit, then
`[\d,]*\.?\d*` up to the end of the line. -/
def priceMatch (s : String) : Bool :=
  match s.data with
  | c0 :: c1 :: rest => c0 = '$' && c1.isDigit && priceTail rest
  | _ => false

/-- Source line 221: the sentinel bullet. -/
def NO_HEADLINES : String := "No recent headlines found."

/-- Source line 208: `price = next((l for l in lines if PRICE_RE.match(l)), lines[0])`
(callers only evaluate this with a non-empty `lines`). -/
def fgPrice (lines : List String) : String :=
  (lines.find? priceMatch).getD (lines.headD "")

/-- Source lines 214–216: `b = l[2:].strip()`, then
`b = b.replace(" - ", " – ")`, then `b = b.replace("’", "'")`. -/
def normBullet (l : String) : String :=
  pyReplace (pyReplace (pyStrip (strDrop l 2)) " - " " – ") "’" "'"

/-- Source lines 211–217: collect the lines starting with `"- "`, in order,
each rewritten by `normBullet`. -/
def fgRawBullets (lines : List String) : List String :=
  (lines.filter (fun l => pyStartsWith l "- ")).map normBullet

/-- Source lines 220–222: substitute the sentinel when no bullets were
collected, then clamp with the Python slice `bullets[:max_bullets]`. -/
def fgKept (lines : List String) (max_bullets : Int) : List String :=
  pySliceTo (if fgRawBullets lines = [] then [NO_HEADLINES] else fgRawBullets lines)
    max_bullets

/-- Source lines 201–226: `format_guard(out_str, max_bullets)`.  Empty line
list returns the input unchanged; otherwise rebuild as the price line followed
by the dash-prefixed kept bullets, joined with newlines. -/
def format_guard (out_str : String) (max_bullets : Int) : String :=
  let lines := pyLines out_str
  if lines = [] then out_str
  else joinNL (fgPrice lines :: (fgKept lines max_bullets).map (fun b => "- " ++ b))

/-- A headline of the structured projection: `{"title": ..., "host": ...}`. -/
structure Headline where
  title : String
  host : String
deriving DecidableEq, Repr

/-- The structured projection `{"price": ..., "headlines": [...]}`. -/
structure StructuredOut where
  price : String
  headlines : List Headline
deriving DecidableEq, Repr

/-- Source lines 228–241: `to_json(out_str)`, embedded up to (and excluding)
the final `json.dumps` serialization: the claims concern the projected
structure `{price, headlines: [{title, host}]}`, which `json.dumps` encodes
injectively.  `txt.split(" – ", 1)` splits at the first occurrence; when the
separator is absent, the title is the whole text and the host is empty; both
parts are then stripped. -/
def jsonHeadline (l : String) : Option Headline :=
  if pyStartsWith l "- " then
    let txt := pyStrip (strDrop l 2)
    match splitFirstChars " – ".data txt.data with
    | some (t, h) => some ⟨pyStrip ⟨t⟩, pyStrip ⟨h⟩⟩
    | none => some ⟨pyStrip txt, pyStrip ""⟩
  else none

def to_json_struct (out_str : String) : StructuredOut :=
  let lines := pyLines out_str
  ⟨lines.headD "", (lines.drop 1).filterMap jsonHeadline⟩

/-- Re-flattening of the structured projection back into text, following the
specification's words for the round-trip claim: the price line first, then one
dash-prefixed line per headline, title and host joined with the en-dash
separator (omitted when the host is empty, the inverse of the projection's
separator-absent case). -/
def headlineLine (h : Headline) : String :=
  "- " ++ (if h.host = "" then h.title else h.title ++ " – " ++ h.host)

def reflatten (j : StructuredOut) : String :=
  joinNL (j.price :: j.headlines.map headlineLine)

/-- Helper for the round-trip hypothesis: a bullet whose parts around the
first en-dash separator (when present) carry no surrounding whitespace. -/
def partsStripped (b : String) : Bool :=
  match splitFirstChars " – ".data b.data with
  | some (t, h) => decide (stripChars t = t) && decide (stripChars h = h)
  | none => true

/-- The prefix of a character list up to (excluding) its first line break. -/
def upToLineBreak (cs : List Char) : List Char :=
  cs.takeWhile (fun c => !(c = '\n' || c = '\r'))


/-! ## Embedding of `src/demo.py` (launcher post-formatting) -/

namespace Demo

/-- `demo.py` line 29: the distinguished section marker. -/
def MARKER : String := "----Final Result----"

/-- `demo.py` lines 38–60: `_format_final_block(block, max_bullets)`.  The
line splitting, price selection, bullet collection and clamping are verbatim
copies of the corresponding code in `langchain_gemini_agent.py`
(so the shared embeddings `pyLines`, `fgPrice`, `fgRawBullets`, `fgKept` are
reused); the differences are the empty-lines sentinel `"\n\n(No output)\n"`
and the surrounding newlines of the rebuilt block. -/
def _format_final_block (block : String) (max_bullets : Int) : String :=
  let lines := pyLines block
  if lines = [] then "\n\n(No output)\n"
  else
    "\n" ++ joinNL (fgPrice lines :: (fgKept lines max_bullets).map (fun b => "- " ++ b))
      ++ "\n"

/-- `demo.py` lines 18–36: `format_guard(out_str, max_bullets)`.  Whitespace-only
input is returned unchanged; when the marker occurs, `out_str.split(marker, 1)`
splits at its first occurrence, the head is passed through and only the tail is
formatted; otherwise the whole output is formatted. -/
def format_guard (out_str : String) (max_bullets : Int) : String :=
  if pyStrip out_str = "" then out_str
  else
    match splitFirstChars MARKER.data out_str.data with
    | some (head, tail) =>
        String.mk head ++ MARKER ++ _format_final_block (String.mk tail) max_bullets
    | none => _format_final_block out_str max_bullets

end Demo

/-! ## Embedding of `src/agents/agent.py` (salvage helper and retry block) -/

/-- The marker of `agent.py` line 94: `FINAL_RE = re.compile(r"Final Answer:\s*(.+)", flags=re.S)`. -/
def FINAL_MARKER : String := "Final Answer:"

/-- Result of running a fallible Python function: either a returned value or a
raised exception. -/
inductive TryResult where
  | ok : Option String → TryResult
  | indexError : TryResult
deriving DecidableEq, Repr

/-- `agent.py` lines 96–103: `try_extract_final(text)`.

`FINAL_RE.search` succeeds iff `"Final Answer:"` occurs with at least one
character after it (`\s*` may match empty, `(.+)` needs one character; when
the sole occurrence ends the string there is no match and the function returns
`None`).  With `re.S`, `\s*` greedily crosses line breaks, so group 1 is the
remainder with its whitespace prefix removed — except when the remainder is
all whitespace, where backtracking leaves a single whitespace character,
`ans = m.group(1).strip()` is `""`, and `ans.splitlines()[0]` raises
`IndexError`.  Otherwise the function returns
`ans.splitlines()[0].strip()`: the first line of the stripped remainder,
stripped. -/
def try_extract_final (text : String) : TryResult :=
  match splitFirstChars FINAL_MARKER.data text.data with
  | none => TryResult.ok none
  | some (_, rest) =>
    match rest.dropWhile isPySpace with
    | [] => if rest = [] then TryResult.ok none else TryResult.indexError
    | _ :: _ =>
      match pySplitlines ⟨stripChars rest⟩ with
      | [] => TryResult.indexError
      | first :: _ => TryResult.ok (some (pyStrip first))

/-- Outcome of one invocation of the wrapped agent call, as seen by the
`__main__` block of `agent.py`: a returned output string, a
`ResourceExhausted` (rate-limit) exception, or any other exception carrying
its message text. -/
inductive CallResult where
  | ok : String → CallResult
  | rateLimited : CallResult
  | err : String → CallResult
deriving DecidableEq, Repr

/-- Observable outcome of the `__main__` block of `agent.py`. -/
inductive MainOutcome where
  /-- The invocation's output was printed (stripped). -/
  | printed : String → MainOutcome
  /-- A `Final Answer` was salvaged from an exception's text and printed. -/
  | salvaged : String → MainOutcome
  /-- No salvage was possible: diagnostic hint printed, `sys.exit(1)`. -/
  | failedExit : MainOutcome
  /-- The second invocation raised `ResourceExhausted` again; it propagates
  out of the `except ResourceExhausted` handler unrecovered. -/
  | uncaughtRateLimit : MainOutcome
  /-- The second invocation raised a non-rate-limit exception inside the
  handler; the sibling `except Exception` clause does not catch it. -/
  | uncaughtError : String → MainOutcome
  /-- `try_extract_final` itself raised `IndexError` inside the handler. -/
  | crashed : MainOutcome
deriving DecidableEq, Repr

/-- `agent.py` lines 107–128: the retry/salvage block, with
`agent_executor.invoke` abstracted as an oracle `call` giving the outcome of
the `i`-th underlying invocation.  Returns the number of invocations made
together with the observable outcome.  Exceptions raised inside the
`except ResourceExhausted` handler propagate (sibling `except` clauses do not
apply to them), and the salvage path runs only for a non-rate-limit failure of
the first invocation. -/
def mainRetry (call : Nat → CallResult) : Nat × MainOutcome :=
  match call 0 with
  | CallResult.ok out => (1, MainOutcome.printed (pyStrip out))
  | CallResult.rateLimited =>
    match call 1 with
    | CallResult.ok out => (2, MainOutcome.printed (pyStrip out))
    | CallResult.rateLimited => (2, MainOutcome.uncaughtRateLimit)
    | CallResult.err m => (2, MainOutcome.uncaughtError m)
  | CallResult.err m =>
    match try_extract_final m with
    | TryResult.ok (some s) => (1, MainOutcome.salvaged s)
    | TryResult.ok none => (1, MainOutcome.failedExit)
    | TryResult.indexError => (1, MainOutcome.crashed)

/-! ## Basic lemmas about the string primitives -/

theorem data_append (a b : String) : (a ++ b).data = a.data ++ b.data := rfl

theorem string_eq_of_data {a b : String} (h : a.data = b.data) : a = b :=
  congrArg String.mk h

theorem startsWithChars_append (p t : List Char) :
    startsWithChars p (p ++ t) = true := by
  induction p with
  | nil => rfl
  | cons c cs ih => simp [startsWithChars, ih]

theorem eq_append_of_startsWithChars {p l : List Char}
    (h : startsWithChars p l = true) : l = p ++ l.drop p.length := by
  induction p generalizing l with
  | nil => simp
  | cons c cs ih =>
    cases l with
    | nil => simp [startsWithChars] at h
    | cons d ds =>
      simp only [startsWithChars, Bool.and_eq_true, decide_eq_true_eq] at h
      obtain ⟨rfl, h2⟩ := h
      simpa using ih h2

theorem dropWhile_eq_self_of_head {p : Char → Bool} {l : List Char}
    (h : ∀ c, l.head? = some c → p c = false) : l.dropWhile p = l := by
  cases l with
  | nil => rfl
  | cons c cs => simp [List.dropWhile_cons, h c rfl]

theorem head?_dropWhile_false {p : Char → Bool} {l : List Char} {c : Char}
    (h : (l.dropWhile p).head? = some c) : p c = false := by
  induction l with
  | nil => simp at h
  | cons d ds ih =>
    by_cases hd : p d
    · rw [List.dropWhile_cons_of_pos hd] at h; exact ih h
    · rw [List.dropWhile_cons_of_neg hd] at h
      simp only [List.head?_cons, Option.some.injEq] at h
      subst h; simpa using hd

theorem getLast?_dropWhile {p : Char → Bool} {l : List Char}
    (h : l.dropWhile p ≠ []) : (l.dropWhile p).getLast? = l.getLast? := by
  induction l with
  | nil => simp at h
  | cons d ds ih =>
    by_cases hd : p d
    · rw [List.dropWhile_cons_of_pos hd] at h ⊢
      cases ds with
      | nil => simp at h
      | cons e es => rw [List.getLast?_cons_cons]; exact ih h
    · rw [List.dropWhile_cons_of_neg hd]

theorem mem_dropWhile {p : Char → Bool} {l : List Char} {c : Char}
    (h : c ∈ l.dropWhile p) : c ∈ l := by
  induction l with
  | nil => simp at h
  | cons d ds ih =>
    by_cases hd : p d
    · rw [List.dropWhile_cons_of_pos hd] at h
      exact List.mem_cons_of_mem d (ih h)
    · rwa [List.dropWhile_cons_of_neg hd] at h

theorem mem_stripChars {l : List Char} {c : Char} (h : c ∈ stripChars l) : c ∈ l := by
  unfold stripChars at h
  rw [List.mem_reverse] at h
  exact mem_dropWhile (by simpa [List.mem_reverse] using mem_dropWhile h)

theorem stripChars_head_false {l : List Char} {c : Char}
    (h : (stripChars l).head? = some c) : isPySpace c = false := by
  unfold stripChars at h
  rw [List.head?_reverse] at h
  have hne : (l.dropWhile isPySpace).reverse.dropWhile isPySpace ≠ [] := by
    rintro hnil; rw [hnil] at h; simp at h
  rw [getLast?_dropWhile hne, List.getLast?_reverse] at h
  exact head?_dropWhile_false h

theorem stripChars_getLast_false {l : List Char} {c : Char}
    (h : (stripChars l).getLast? = some c) : isPySpace c = false := by
  unfold stripChars at h
  rw [List.getLast?_reverse] at h
  exact head?_dropWhile_false h

theorem stripChars_eq_self {l : List Char}
    (h1 : ∀ c, l.head? = some c → isPySpace c = false)
    (h2 : ∀ c, l.getLast? = some c → isPySpace c = false) :
    stripChars l = l := by
  unfold stripChars
  rw [dropWhile_eq_self_of_head h1]
  rw [dropWhile_eq_self_of_head (by simpa [List.head?_reverse] using h2)]
  exact List.reverse_reverse l

theorem stripChars_idem (l : List Char) : stripChars (stripChars l) = stripChars l := by
  by_cases h : stripChars l = []
  · rw [h]; rfl
  · exact stripChars_eq_self (fun c hc => stripChars_head_false hc)
      (fun c hc => stripChars_getLast_false hc)

theorem pyStrip_idem (s : String) : pyStrip (pyStrip s) = pyStrip s := by
  unfold pyStrip
  exact congrArg String.mk (stripChars_idem s.data)

theorem stripChars_eq_nil_iff {l : List Char} :
    stripChars l = [] ↔ ∀ c ∈ l, isPySpace c = true := by
  unfold stripChars
  rw [List.reverse_eq_nil_iff, List.dropWhile_eq_nil_iff]
  constructor
  · intro h c hc
    have hsplit := @List.takeWhile_append_dropWhile _ isPySpace l
    rw [← hsplit] at hc
    rcases List.mem_append.mp hc with h1 | h1
    · exact List.mem_takeWhile_imp h1
    · exact h c (List.mem_reverse.mpr h1)
  · intro h c hc
    exact h c (mem_dropWhile (List.mem_reverse.mp hc))

/-! ## Lemmas about `pySplitlinesAux` and `replaceFuel` -/

theorem pySplitlinesAux_append_newline {xs : List Char} (rest acc : List Char)
    (h : noLB xs) :
    pySplitlinesAux (xs ++ '\n' :: rest) acc
      = (acc.reverse ++ xs) :: pySplitlinesAux rest [] := by
  induction xs generalizing acc with
  | nil => simp [pySplitlinesAux]
  | cons c cs ih =>
    have hc := h c (List.mem_cons_self c cs)
    have hcs : noLB cs := fun d hd => h d (List.mem_cons_of_mem c hd)
    have hcb : (decide (c = '\n') || decide (c = '\r')) = false := by
      simp [hc.1, hc.2]
    rw [List.cons_append, pySplitlinesAux, if_neg (by simp [hcb]), ih (c :: acc) hcs]
    simp

theorem pySplitlinesAux_noBreak {xs : List Char} (acc : List Char)
    (h : noLB xs) (h2 : ¬(xs = [] ∧ acc = [])) :
    pySplitlinesAux xs acc = [acc.reverse ++ xs] := by
  induction xs generalizing acc with
  | nil =>
    have : acc ≠ [] := fun hnil => h2 ⟨rfl, hnil⟩
    simp [pySplitlinesAux, this]
  | cons c cs ih =>
    have hc := h c (List.mem_cons_self c cs)
    have hcs : noLB cs := fun d hd => h d (List.mem_cons_of_mem c hd)
    have hcb : (decide (c = '\n') || decide (c = '\r')) = false := by
      simp [hc.1, hc.2]
    rw [pySplitlinesAux, if_neg (by simp [hcb]), ih (c :: acc) hcs (by simp)]
    simp

theorem noLB_of_mem_pySplitlinesAux {cs acc x : List Char}
    (hacc : noLB acc) (hx : x ∈ pySplitlinesAux cs acc) : noLB x := by
  induction cs generalizing acc with
  | nil =>
    by_cases h : acc = []
    · subst h; simp [pySplitlinesAux] at hx
    · rw [pySplitlinesAux, if_neg h] at hx
      simp only [List.mem_singleton] at hx
      subst hx
      exact fun c hc => hacc c (List.mem_reverse.mp hc)
  | cons c rest ih =>
    by_cases hc : c = '\n' ∨ c = '\r'
    · have : (c = '\n' || c = '\r') = true := by
        rcases hc with h | h <;> simp [h]
      rw [pySplitlinesAux, if_pos this] at hx
      rcases List.mem_cons.mp hx with h1 | h1
      · subst h1; exact fun d hd => hacc d (List.mem_reverse.mp hd)
      · exact ih (fun d hd => by simp at hd) h1
    · push_neg at hc
      have : (c = '\n' || c = '\r') = false := by simp [hc.1, hc.2]
      rw [pySplitlinesAux, if_neg (by simp [this])] at hx
      refine ih ?_ hx
      intro d hd
      rcases List.mem_cons.mp hd with h1 | h1
      · subst h1; exact hc
      · exact hacc d h1

theorem pySplitlinesAux_head {cs acc : List Char} (h2 : ¬(cs = [] ∧ acc = [])) :
    (pySplitlinesAux cs acc).head?
      = some (acc.reverse ++ cs.takeWhile (fun c => !(c = '\n' || c = '\r'))) := by
  induction cs generalizing acc with
  | nil =>
    have : acc ≠ [] := fun hnil => h2 ⟨rfl, hnil⟩
    simp [pySplitlinesAux, this]
  | cons c rest ih =>
    by_cases hc : (c = '\n' || c = '\r') = true
    · rw [pySplitlinesAux, if_pos hc, List.takeWhile_cons_of_neg (by simp [hc])]
      simp
    · have hcb : (c = '\n' || c = '\r') = false := by simpa using hc
      rw [pySplitlinesAux, if_neg (by simp [hcb]),
        List.takeWhile_cons_of_pos (by simp [hcb]), ih (by simp)]
      simp

theorem replaceFuel_nil (old new : List Char) (fuel : Nat) :
    replaceFuel old new fuel [] = [] := by
  cases fuel <;> rfl

theorem replaceFuel_ne_nil {old new l : List Char} (fuel : Nat)
    (hnew : new ≠ []) (hl : l ≠ []) : replaceFuel old new fuel l ≠ [] := by
  cases fuel with
  | zero => exact hl
  | succ n =>
    cases l with
    | nil => exact absurd rfl hl
    | cons c rest =>
      rw [replaceFuel]
      by_cases h : startsWithChars old (c :: rest) = true
      · rw [if_pos h]; simp [hnew]
      · rw [if_neg h]; simp

theorem mem_replaceFuel {old new l : List Char} {c : Char} (fuel : Nat)
    (h : c ∈ replaceFuel old new fuel l) : c ∈ l ∨ c ∈ new := by
  induction fuel generalizing l with
  | zero => exact Or.inl h
  | succ n ih =>
    cases l with
    | nil => simp [replaceFuel] at h
    | cons d rest =>
      rw [replaceFuel] at h
      by_cases hp : startsWithChars old (d :: rest) = true
      · rw [if_pos hp] at h
        rcases List.mem_append.mp h with h1 | h1
        · exact Or.inr h1
        · rcases ih h1 with h2 | h2
          · exact Or.inl (List.mem_cons_of_mem d (List.drop_subset _ rest h2))
          · exact Or.inr h2
      · rw [if_neg hp] at h
        rcases List.mem_cons.mp h with h1 | h1
        · exact Or.inl (h1 ▸ List.mem_cons_self d rest)
        · rcases ih h1 with h2 | h2
          · exact Or.inl (List.mem_cons_of_mem d h2)
          · exact Or.inr h2

theorem replaceFuel_head? {old new l : List Char} (fuel : Nat)
    (h : startsWithChars old l = false) :
    (replaceFuel old new fuel l).head? = l.head? := by
  cases fuel with
  | zero => rfl
  | succ n =>
    cases l with
    | nil => rfl
    | cons c rest => rw [replaceFuel, if_neg (by simp [h])]; rfl

theorem replaceFuel_head_not_space {old new l : List Char} (fuel : Nat)
    (hnew : new ≠ [])
    (hnewh : ∀ c, new.head? = some c → isPySpace c = false)
    (hl : ∀ c, l.head? = some c → isPySpace c = false) :
    ∀ c, (replaceFuel old new fuel l).head? = some c → isPySpace c = false := by
  intro c hc
  cases fuel with
  | zero => exact hl c hc
  | succ n =>
    cases l with
    | nil => simp [replaceFuel] at hc
    | cons d rest =>
      rw [replaceFuel] at hc
      by_cases hp : startsWithChars old (d :: rest) = true
      · rw [if_pos hp] at hc
        cases hn : new with
        | nil => exact absurd hn hnew
        | cons e es =>
          rw [hn, List.cons_append, List.head?_cons, Option.some.injEq] at hc
          subst hc
          exact hnewh e (by rw [hn]; rfl)
      · rw [if_neg hp, List.head?_cons, Option.some.injEq] at hc
        subst hc
        exact hl d rfl

theorem getLast?_cons_of_ne_nil {α : Type} (d : α) {l : List α} (h : l ≠ []) :
    (d :: l).getLast? = l.getLast? := by
  cases l with
  | nil => exact absurd rfl h
  | cons e es => rw [List.getLast?_cons_cons]

theorem replaceFuel_getLast_eq {old new : List Char} (fuel : Nat) {l : List Char}
    (hold : old.getLast? = some ' ') (hnew : new ≠ [])
    (hl : ∀ c, l.getLast? = some c → isPySpace c = false) :
    (replaceFuel old new fuel l).getLast? = l.getLast? := by
  induction fuel generalizing l with
  | zero => rfl
  | succ n ih =>
    cases l with
    | nil => rfl
    | cons d rest =>
      rw [replaceFuel]
      by_cases hp : startsWithChars old (d :: rest) = true
      · rw [if_pos hp]
        have holdne : old ≠ [] := by rintro rfl; simp at hold
        have hdec := eq_append_of_startsWithChars hp
        have hdrop : (d :: rest).drop old.length = rest.drop (old.length - 1) := by
          obtain ⟨k, hk⟩ := Nat.exists_eq_succ_of_ne_zero
            (fun h0 => holdne (List.length_eq_zero.mp h0))
          rw [hk]; simp
        rw [hdrop] at hdec
        by_cases ht : rest.drop (old.length - 1) = []
        · rw [ht] at hdec
          have : (d :: rest).getLast? = some ' ' := by
            rw [hdec, List.append_nil, hold]
          exact absurd (hl ' ' this) (by simp [isPySpace])
        · have hrec := @replaceFuel_ne_nil old new _ n hnew ht
          have hlast : (d :: rest).getLast? = (rest.drop (old.length - 1)).getLast? := by
            rw [hdec]; exact List.getLast?_append_of_ne_nil _ ht
          rw [List.getLast?_append_of_ne_nil _ hrec, hlast]
          exact ih (fun c hc => hl c (hlast ▸ hc))
      · rw [if_neg hp]
        by_cases hrn : rest = []
        · subst hrn; simp [replaceFuel_nil]
        · have hrec := @replaceFuel_ne_nil old new _ n hnew hrn
          rw [getLast?_cons_of_ne_nil d hrec, getLast?_cons_of_ne_nil d hrn]
          exact ih (fun c hc => hl c (by rw [getLast?_cons_of_ne_nil d hrn]; exact hc))

theorem replaceFuel_getLast_not_space {old new : List Char} (fuel : Nat) {l : List Char}
    (hnew : new ≠ [])
    (hnewl : ∀ c, new.getLast? = some c → isPySpace c = false)
    (hl : ∀ c, l.getLast? = some c → isPySpace c = false) :
    ∀ c, (replaceFuel old new fuel l).getLast? = some c → isPySpace c = false := by
  induction fuel generalizing l with
  | zero => exact hl
  | succ n ih =>
    cases l with
    | nil => intro c hc; rw [replaceFuel] at hc; simp at hc
    | cons d rest =>
      intro c hc
      rw [replaceFuel] at hc
      by_cases hp : startsWithChars old (d :: rest) = true
      · rw [if_pos hp] at hc
        by_cases ht : replaceFuel old new n (rest.drop (old.length - 1)) = []
        · rw [ht, List.append_nil] at hc
          exact hnewl c hc
        · rw [List.getLast?_append_of_ne_nil _ ht] at hc
          have hsuffne : rest.drop (old.length - 1) ≠ [] := by
            rintro h0; rw [h0] at ht; exact ht (replaceFuel_nil _ _ _)
          have hlast : (d :: rest).getLast? = (rest.drop (old.length - 1)).getLast? := by
            by_cases holn : old = []
            · subst holn
              simp only [List.length_nil, Nat.zero_sub, List.drop_zero] at hsuffne ⊢
              exact getLast?_cons_of_ne_nil d hsuffne
            · have hdec := eq_append_of_startsWithChars hp
              have hdrop : (d :: rest).drop old.length = rest.drop (old.length - 1) := by
                obtain ⟨k, hk⟩ := Nat.exists_eq_succ_of_ne_zero
                  (fun h0 => holn (List.length_eq_zero.mp h0))
                rw [hk]; simp
              rw [hdrop] at hdec
              rw [hdec]
              exact List.getLast?_append_of_ne_nil _ hsuffne
          exact ih (fun e he => hl e (hlast ▸ he)) c hc
      · rw [if_neg hp] at hc
        by_cases hrn : rest = []
        · subst hrn
          rw [replaceFuel_nil] at hc
          simp only [List.getLast?_singleton, Option.some.injEq] at hc
          subst hc
          exact hl d rfl
        · have hrec := @replaceFuel_ne_nil old new _ n hnew hrn
          rw [getLast?_cons_of_ne_nil d hrec] at hc
          exact ih (fun e he => hl e (by rw [getLast?_cons_of_ne_nil d hrn]; exact he)) c hc

theorem splitFirstChars_none_cons {pat : List Char} {c : Char} {rest : List Char}
    (h : splitFirstChars pat (c :: rest) = none) :
    startsWithChars pat (c :: rest) = false ∧ splitFirstChars pat rest = none := by
  rw [splitFirstChars] at h
  by_cases hp : startsWithChars pat (c :: rest) = true
  · rw [if_pos hp] at h; simp at h
  · rw [if_neg hp] at h
    refine ⟨by simpa using hp, ?_⟩
    cases hs : splitFirstChars pat rest with
    | none => rfl
    | some ab => rw [hs] at h; cases ab; simp at h

theorem replaceFuel_eq_self_of_none {old new : List Char} (fuel : Nat) {l : List Char}
    (h : splitFirstChars old l = none) : replaceFuel old new fuel l = l := by
  induction fuel generalizing l with
  | zero => rfl
  | succ n ih =>
    cases l with
    | nil => rfl
    | cons c rest =>
      obtain ⟨h1, h2⟩ := splitFirstChars_none_cons h
      rw [replaceFuel, if_neg (by simp [h1]), ih h2]

theorem splitFirstChars_sound {pat l x y : List Char}
    (h : splitFirstChars pat l = some (x, y)) : l = x ++ pat ++ y := by
  induction l generalizing x with
  | nil => simp [splitFirstChars] at h
  | cons c rest ih =>
    rw [splitFirstChars] at h
    by_cases hp : startsWithChars pat (c :: rest) = true
    · rw [if_pos hp] at h
      simp only [Option.some.injEq, Prod.mk.injEq] at h
      obtain ⟨rfl, rfl⟩ := h
      simpa using eq_append_of_startsWithChars hp
    · rw [if_neg hp] at h
      cases hs : splitFirstChars pat rest with
      | none => rw [hs] at h; simp at h
      | some ab =>
        obtain ⟨a, b⟩ := ab
        rw [hs] at h
        simp only [Option.some.injEq, Prod.mk.injEq] at h
        obtain ⟨rfl, rfl⟩ := h
        simp [ih hs]

theorem splitFirstChars_none_of_not_mem {a : Char} {l : List Char}
    (h : a ∉ l) : splitFirstChars [a] l = none := by
  induction l with
  | nil => rfl
  | cons c rest ih =>
    have hac : a ≠ c := fun he => h (he ▸ List.mem_cons_self c rest)
    rw [splitFirstChars,
      if_neg (by simp [startsWithChars, hac]),
      ih (fun hm => h (List.mem_cons_of_mem c hm))]

theorem not_mem_replaceFuel_single {a : Char} {new l : List Char} {fuel : Nat}
    (hnew : a ∉ new) (hf : l.length ≤ fuel) : a ∉ replaceFuel [a] new fuel l := by
  induction fuel generalizing l with
  | zero =>
    rw [Nat.le_zero, List.length_eq_zero] at hf
    subst hf; simp [replaceFuel]
  | succ n ih =>
    cases l with
    | nil => simp [replaceFuel]
    | cons c rest =>
      rw [replaceFuel]
      simp only [List.length_cons, Nat.succ_le_succ_iff] at hf
      by_cases hp : startsWithChars [a] (c :: rest) = true
      · rw [if_pos hp]
        have hrest : rest.drop ([a].length - 1) = rest := by simp
        rw [hrest]
        intro hm
        rcases List.mem_append.mp hm with h1 | h1
        · exact hnew h1
        · exact ih hf h1
      · rw [if_neg hp]
        intro hm
        rcases List.mem_cons.mp hm with h1 | h1
        · exact hp (by simp [startsWithChars, h1])
        · exact ih hf h1

/-! ## Reconstruction: `pyLines` of a rebuilt output -/

theorem mk_data (s : String) : String.mk s.data = s := rfl

theorem data_ne_nil {s : String} (h : s ≠ "") : s.data ≠ [] :=
  fun h0 => h (string_eq_of_data h0)

theorem joinNL_data_cons (l : String) {ls : List String} (h : ls ≠ []) :
    (joinNL (l :: ls)).data = l.data ++ '\n' :: (joinNL ls).data := by
  cases ls with
  | nil => exact absurd rfl h
  | cons l' ls' =>
    show (l ++ "\n" ++ joinNL (l' :: ls')).data = _
    rw [data_append, data_append]
    simp

theorem joinNL_data_ne_nil {L : List String} (hL : L ≠ []) (h : ∀ x ∈ L, x ≠ "") :
    (joinNL L).data ≠ [] := by
  cases L with
  | nil => exact absurd rfl hL
  | cons l ls =>
    cases ls with
    | nil => exact data_ne_nil (h l (List.mem_cons_self l []))
    | cons l' ls' =>
      rw [joinNL_data_cons l (by simp)]
      simp [data_ne_nil (h l (List.mem_cons_self _ _))]

theorem joinNL_head_not_space {L : List String} (hgood : ∀ x ∈ L, GoodLine x) :
    ∀ c, (joinNL L).data.head? = some c → isPySpace c = false := by
  intro c hc
  cases L with
  | nil => simp [joinNL] at hc
  | cons l ls =>
    have hg := hgood l (List.mem_cons_self l ls)
    have hstrip : stripChars l.data = l.data := congrArg String.data hg.1
    cases ls with
    | nil => exact stripChars_head_false (by rw [hstrip]; exact hc)
    | cons l' ls' =>
      rw [joinNL_data_cons l (by simp),
        List.head?_append_of_ne_nil _ (data_ne_nil hg.2.1)] at hc
      exact stripChars_head_false (by rw [hstrip]; exact hc)

theorem joinNL_getLast_not_space {L : List String} (hgood : ∀ x ∈ L, GoodLine x) :
    ∀ c, (joinNL L).data.getLast? = some c → isPySpace c = false := by
  induction L with
  | nil => intro c hc; simp [joinNL] at hc
  | cons l ls ih =>
    intro c hc
    have hg := hgood l (List.mem_cons_self l ls)
    have hstrip : stripChars l.data = l.data := congrArg String.data hg.1
    cases ls with
    | nil => exact stripChars_getLast_false (by rw [hstrip]; exact hc)
    | cons l' ls' =>
      rw [joinNL_data_cons l (by simp),
        List.getLast?_append_of_ne_nil _ (by simp),
        getLast?_cons_of_ne_nil '\n'
          (joinNL_data_ne_nil (by simp)
            (fun x hx => (hgood x (List.mem_cons_of_mem l hx)).2.1))] at hc
      exact ih (fun x hx => hgood x (List.mem_cons_of_mem l hx)) c hc

theorem pyStrip_joinNL {L : List String} (hgood : ∀ x ∈ L, GoodLine x) :
    pyStrip (joinNL L) = joinNL L :=
  string_eq_of_data
    (stripChars_eq_self (joinNL_head_not_space hgood) (joinNL_getLast_not_space hgood))

theorem joinNL_noCR {L : List String} (h : ∀ x ∈ L, noLB x.data) :
    '\r' ∉ (joinNL L).data := by
  induction L with
  | nil => simp [joinNL]
  | cons l ls ih =>
    cases ls with
    | nil =>
      intro hm
      exact (h l (List.mem_cons_self l []) '\r' hm).2 rfl
    | cons l' ls' =>
      rw [joinNL_data_cons l (by simp)]
      intro hm
      rcases List.mem_append.mp hm with h1 | h1
      · exact (h l (List.mem_cons_self _ _) '\r' h1).2 rfl
      · rcases List.mem_cons.mp h1 with h2 | h2
        · exact absurd h2 (by decide)
        · exact ih (fun x hx => h x (List.mem_cons_of_mem l hx)) h2

theorem splitFirstChars_none_of_head_not_mem {p : Char} {ps l : List Char}
    (h : p ∉ l) : splitFirstChars (p :: ps) l = none := by
  induction l with
  | nil => rfl
  | cons c rest ih =>
    have hpc : p ≠ c := fun he => h (he ▸ List.mem_cons_self c rest)
    rw [splitFirstChars,
      if_neg (by simp [startsWithChars, hpc]),
      ih (fun hm => h (List.mem_cons_of_mem c hm))]

theorem replaceChars_crnl_eq_self {l : List Char} (h : '\r' ∉ l) :
    replaceChars ['\r', '\n'] ['\n'] l = l :=
  replaceFuel_eq_self_of_none _ (splitFirstChars_none_of_head_not_mem h)

theorem pySplitlinesAux_join (L : List String) (h : ∀ x ∈ L, x ≠ "" ∧ noLB x.data) :
    pySplitlinesAux (joinNL L).data [] = L.map String.data := by
  induction L with
  | nil => rfl
  | cons l ls ih =>
    have hl := h l (List.mem_cons_self l ls)
    cases ls with
    | nil =>
      show pySplitlinesAux l.data [] = [l.data]
      rw [pySplitlinesAux_noBreak [] hl.2 (by simp [data_ne_nil hl.1])]
      simp
    | cons l' ls' =>
      rw [joinNL_data_cons l (by simp),
        pySplitlinesAux_append_newline _ [] hl.2,
        ih (fun x hx => h x (List.mem_cons_of_mem l hx))]
      simp

theorem pySplitlines_joinNL {L : List String} (h : ∀ x ∈ L, x ≠ "" ∧ noLB x.data) :
    pySplitlines (joinNL L) = L := by
  unfold pySplitlines
  rw [replaceChars_crnl_eq_self (joinNL_noCR (fun x hx => (h x hx).2)),
    pySplitlinesAux_join L h, List.map_map]
  have hid : (String.mk ∘ String.data) = id := funext fun s => rfl
  rw [hid, List.map_id]

theorem pyLines_joinNL {L : List String} (h : ∀ x ∈ L, GoodLine x) :
    pyLines (joinNL L) = L := by
  unfold pyLines
  rw [pyStrip_joinNL h, pySplitlines_joinNL (fun x hx => ⟨(h x hx).2.1, (h x hx).2.2⟩)]
  have hmap : L.map pyStrip = L := by
    rw [List.map_congr_left (fun x hx => (h x hx).1)]
    exact List.map_id L
  rw [hmap]
  rw [List.filter_eq_self.mpr (fun x hx => by simp [(h x hx).2.1])]

theorem goodLine_of_mem_pyLines {s l : String} (h : l ∈ pyLines s) : GoodLine l := by
  unfold pyLines at h
  have h2 := List.mem_filter.mp h
  obtain ⟨x, hx, rfl⟩ := List.mem_map.mp h2.1
  refine ⟨pyStrip_idem x, by simpa using h2.2, ?_⟩
  unfold pySplitlines at hx
  obtain ⟨y, hy, rfl⟩ := List.mem_map.mp hx
  intro c hc
  exact noLB_of_mem_pySplitlinesAux (fun d hd => by simp at hd) hy c (mem_stripChars hc)

/-! ## Properties of the normalizer's building blocks -/

theorem mem_of_getLast? {α : Type} {l : List α} {a : α} (h : l.getLast? = some a) :
    a ∈ l := by
  induction l with
  | nil => simp at h
  | cons c cs ih =>
    cases cs with
    | nil =>
      simp only [List.getLast?_singleton, Option.some.injEq] at h
      exact h ▸ List.mem_cons_self c []
    | cons d ds =>
      rw [List.getLast?_cons_cons] at h
      exact List.mem_cons_of_mem c (ih h)

theorem good_head_not_space {s : String} (h : GoodLine s) :
    ∀ c, s.data.head? = some c → isPySpace c = false := by
  intro c hc
  have hd : stripChars s.data = s.data := congrArg String.data h.1
  exact stripChars_head_false (by rw [hd]; exact hc)

theorem good_getLast_not_space {s : String} (h : GoodLine s) :
    ∀ c, s.data.getLast? = some c → isPySpace c = false := by
  intro c hc
  have hd : stripChars s.data = s.data := congrArg String.data h.1
  exact stripChars_getLast_false (by rw [hd]; exact hc)

theorem goodLine_dash_append {b : String} (h : GoodLine b) : GoodLine ("- " ++ b) := by
  have hdata : ("- " ++ b).data = '-' :: ' ' :: b.data := rfl
  have hbne : b.data ≠ [] := data_ne_nil h.2.1
  refine ⟨?_, ?_, ?_⟩
  · apply string_eq_of_data
    show stripChars ('-' :: ' ' :: b.data) = '-' :: ' ' :: b.data
    apply stripChars_eq_self
    · intro c hc
      simp only [List.head?_cons, Option.some.injEq] at hc
      subst hc; decide
    · intro c hc
      rw [getLast?_cons_of_ne_nil '-' (by simp),
        getLast?_cons_of_ne_nil ' ' hbne] at hc
      exact good_getLast_not_space h c hc
  · intro he
    have h0 := congrArg String.data he
    rw [hdata] at h0
    exact List.cons_ne_nil _ _ h0
  · rw [hdata]
    intro c hc
    rcases List.mem_cons.mp hc with h1 | h1
    · subst h1; exact ⟨by decide, by decide⟩
    · rcases List.mem_cons.mp h1 with h2 | h2
      · subst h2; exact ⟨by decide, by decide⟩
      · exact h.2.2 c h2

theorem goodLine_normBullet {l : String} (hg : GoodLine l)
    (hd : pyStartsWith l "- " = true) : GoodLine (normBullet l) := by
  have hsw : startsWithChars ['-', ' '] l.data = true := hd
  have hdec := eq_append_of_startsWithChars hsw
  set t : List Char := l.data.drop 2 with ht
  have hdec2 : l.data = '-' :: ' ' :: t := by simpa using hdec
  have htne : t ≠ [] := by
    rintro h0
    rw [h0] at hdec2
    have : l.data.getLast? = some ' ' := by rw [hdec2]; rfl
    exact absurd (good_getLast_not_space hg ' ' this) (by simp [isPySpace])
  have htlast : l.data.getLast? = t.getLast? := by
    rw [hdec2, getLast?_cons_of_ne_nil '-' (by simp), getLast?_cons_of_ne_nil ' ' htne]
  -- `b₀ = l[2:].strip()`
  have hb0data : (pyStrip (strDrop l 2)).data = stripChars t := rfl
  have hb0ne : stripChars t ≠ [] := by
    intro h0
    rw [stripChars_eq_nil_iff] at h0
    have hc0 : t.getLast? = some (t.getLast htne) := List.getLast?_eq_getLast t htne
    have hmem := h0 _ (mem_of_getLast? hc0)
    rw [good_getLast_not_space hg _ (htlast ▸ hc0)] at hmem
    exact Bool.false_ne_true hmem
  have hb0head : ∀ c, (stripChars t).head? = some c → isPySpace c = false :=
    fun c hc => stripChars_head_false hc
  have hb0last : ∀ c, (stripChars t).getLast? = some c → isPySpace c = false :=
    fun c hc => stripChars_getLast_false hc
  have hb0noLB : noLB (stripChars t) := by
    intro c hc
    exact hg.2.2 c (List.drop_subset 2 l.data (ht ▸ mem_stripChars hc))
  -- `b₁ = b₀.replace(" - ", " – ")`
  have hr1data : (pyReplace (pyStrip (strDrop l 2)) " - " " – ").data
      = replaceFuel [' ', '-', ' '] [' ', '–', ' '] (stripChars t).length (stripChars t) := by
    show replaceChars _ _ _ = _
    rw [hb0data]; rfl
  have hr1ne : replaceFuel [' ', '-', ' '] [' ', '–', ' ']
      (stripChars t).length (stripChars t) ≠ [] :=
    replaceFuel_ne_nil _ (by simp) hb0ne
  have hnosw : startsWithChars [' ', '-', ' '] (stripChars t) = false := by
    cases hs : stripChars t with
    | nil => exact absurd hs hb0ne
    | cons c cs =>
      have hc := hb0head c (by rw [hs]; rfl)
      have hne : c ≠ ' ' := fun he => by subst he; simp [isPySpace] at hc
      have hdec0 : decide (' ' = c) = false := decide_eq_false (fun he => hne he.symm)
      simp [startsWithChars, hdec0]
  have hr1head : ∀ c, (replaceFuel [' ', '-', ' '] [' ', '–', ' ']
      (stripChars t).length (stripChars t)).head? = some c → isPySpace c = false := by
    intro c hc
    rw [replaceFuel_head? _ hnosw] at hc
    exact hb0head c hc
  have hr1last : ∀ c, (replaceFuel [' ', '-', ' '] [' ', '–', ' ']
      (stripChars t).length (stripChars t)).getLast? = some c → isPySpace c = false := by
    intro c hc
    rw [replaceFuel_getLast_eq _ (by decide) (by simp) hb0last] at hc
    exact hb0last c hc
  have hr1noLB : noLB (replaceFuel [' ', '-', ' '] [' ', '–', ' ']
      (stripChars t).length (stripChars t)) := by
    intro c hc
    rcases mem_replaceFuel _ hc with h1 | h1
    · exact hb0noLB c h1
    · have : c = ' ' ∨ c = '–' ∨ c = ' ' := by simpa using h1
      rcases this with h2 | h2 | h2 <;> subst h2 <;> exact ⟨by decide, by decide⟩
  -- `b₂ = b₁.replace("’", "'")`
  have hnb : (normBullet l).data
      = replaceFuel ['’'] ['\''] (pyReplace (pyStrip (strDrop l 2)) " - " " – ").data.length
          (pyReplace (pyStrip (strDrop l 2)) " - " " – ").data := rfl
  refine ⟨?_, ?_, ?_⟩
  · apply string_eq_of_data
    apply stripChars_eq_self
    · intro c hc
      rw [hnb] at hc
      refine replaceFuel_head_not_space _ (by simp) (by decide) ?_ c hc
      rw [hr1data]; exact hr1head
    · intro c hc
      rw [hnb] at hc
      refine replaceFuel_getLast_not_space _ (by simp) (by decide) ?_ c hc
      rw [hr1data]; exact hr1last
  · intro he
    have h0 := congrArg String.data he
    rw [hnb] at h0
    refine replaceFuel_ne_nil _ (by simp) ?_ h0
    rw [hr1data]; exact hr1ne
  · intro c hc
    rw [hnb] at hc
    rcases mem_replaceFuel _ hc with h1 | h1
    · rw [hr1data] at h1; exact hr1noLB c h1
    · have : c = '\'' := by simpa using h1
      subst this; exact ⟨by decide, by decide⟩

theorem no_curly_normBullet (l : String) : '’' ∉ (normBullet l).data := by
  have hnb : (normBullet l).data
      = replaceFuel ['’'] ['\''] (pyReplace (pyStrip (strDrop l 2)) " - " " – ").data.length
          (pyReplace (pyStrip (strDrop l 2)) " - " " – ").data := rfl
  rw [hnb]
  exact not_mem_replaceFuel_single (by decide) (Nat.le_refl _)

theorem mem_of_mem_pySliceTo {α : Type} {l : List α} {k : Int} {x : α}
    (h : x ∈ pySliceTo l k) : x ∈ l := by
  unfold pySliceTo at h
  split at h <;> exact List.take_subset _ _ h

theorem goodLine_NO_HEADLINES : GoodLine NO_HEADLINES := by decide

theorem kept_elem_cases {L : List String} {n : Int} {b : String}
    (h : b ∈ fgKept L n) : b = NO_HEADLINES ∨ b ∈ fgRawBullets L := by
  unfold fgKept at h
  have h2 := mem_of_mem_pySliceTo h
  by_cases hraw : fgRawBullets L = []
  · rw [if_pos hraw] at h2
    exact Or.inl (List.mem_singleton.mp h2)
  · rw [if_neg hraw] at h2
    exact Or.inr h2

theorem rawBullet_elem {L : List String} {b : String} (h : b ∈ fgRawBullets L) :
    ∃ l ∈ L, pyStartsWith l "- " = true ∧ b = normBullet l := by
  unfold fgRawBullets at h
  obtain ⟨l, hl, rfl⟩ := List.mem_map.mp h
  have h2 := List.mem_filter.mp hl
  exact ⟨l, h2.1, by simpa using h2.2, rfl⟩

theorem goodKept {s : String} {n : Int} {b : String}
    (h : b ∈ fgKept (pyLines s) n) : GoodLine b ∧ '’' ∉ b.data := by
  rcases kept_elem_cases h with h1 | h1
  · subst h1; exact ⟨goodLine_NO_HEADLINES, by decide⟩
  · obtain ⟨l, hl, hsw, rfl⟩ := rawBullet_elem h1
    exact ⟨goodLine_normBullet (goodLine_of_mem_pyLines hl) hsw, no_curly_normBullet l⟩

theorem fgPrice_mem {L : List String} (h : L ≠ []) : fgPrice L ∈ L := by
  unfold fgPrice
  cases hf : L.find? priceMatch with
  | some x => simpa using List.mem_of_find?_eq_some hf
  | none =>
    cases L with
    | nil => exact absurd rfl h
    | cons a t => simp [List.headD]

theorem priceMatch_dash (b : String) : priceMatch ("- " ++ b) = false := by
  have hdata : ("- " ++ b).data = '-' :: ' ' :: b.data := rfl
  unfold priceMatch
  rw [hdata]
  simp

theorem pyStartsWith_dash (b : String) : pyStartsWith ("- " ++ b) "- " = true := by
  show startsWithChars "- ".data ("- " ++ b).data = true
  rw [data_append]
  exact startsWithChars_append _ _

theorem strDrop_dash (b : String) : strDrop ("- " ++ b) 2 = b := rfl

theorem format_guard_eq_joinNL {s : String} (n : Int) (h : pyLines s ≠ []) :
    format_guard s n
      = joinNL (fgPrice (pyLines s) :: (fgKept (pyLines s) n).map (fun b => "- " ++ b)) := by
  simp only [format_guard]
  rw [if_neg h]

theorem format_guard_of_no_lines {s : String} (n : Int) (h : pyLines s = []) :
    format_guard s n = s := by
  simp only [format_guard]
  rw [if_pos h]

theorem pyLines_format_guard {s : String} (n : Int) (h : pyLines s ≠ []) :
    pyLines (format_guard s n)
      = fgPrice (pyLines s) :: (fgKept (pyLines s) n).map (fun b => "- " ++ b) := by
  rw [format_guard_eq_joinNL n h]
  apply pyLines_joinNL
  intro x hx
  rcases List.mem_cons.mp hx with h1 | h1
  · subst h1; exact goodLine_of_mem_pyLines (fgPrice_mem h)
  · obtain ⟨b, hb, rfl⟩ := List.mem_map.mp h1
    exact goodLine_dash_append (goodKept hb).1

/-! ## Second-pass lemmas: re-normalizing a rebuilt output -/

theorem fgPrice_second {price : String} {bl : List String}
    (hbl : ∀ x ∈ bl, ∃ b, x = "- " ++ b) : fgPrice (price :: bl) = price := by
  unfold fgPrice
  by_cases hp : priceMatch price = true
  · rw [List.find?_cons_of_pos _ hp]; rfl
  · rw [List.find?_cons_of_neg _ (by simpa using hp)]
    have hnone : bl.find? priceMatch = none := List.find?_eq_none.mpr (fun x hx => by
      obtain ⟨b, rfl⟩ := hbl x hx
      simp [priceMatch_dash])
    rw [hnone]; rfl

theorem filter_dash_second {price : String} {bl : List String}
    (hp : pyStartsWith price "- " = false)
    (hbl : ∀ x ∈ bl, ∃ b, x = "- " ++ b) :
    (price :: bl).filter (fun l => pyStartsWith l "- ") = bl := by
  rw [List.filter_cons_of_neg (by simp [hp])]
  exact List.filter_eq_self.mpr (fun x hx => by
    obtain ⟨b, rfl⟩ := hbl x hx
    simp [pyStartsWith_dash])

theorem normBullet_dash_eq {b : String} (hGood : GoodLine b)
    (hnd : splitFirstChars " - ".data b.data = none)
    (hq : '’' ∉ b.data) : normBullet ("- " ++ b) = b := by
  unfold normBullet
  rw [strDrop_dash, hGood.1]
  have h1 : pyReplace b " - " " – " = b :=
    string_eq_of_data (replaceFuel_eq_self_of_none _ hnd)
  rw [h1]
  exact string_eq_of_data
    (replaceFuel_eq_self_of_none _ (splitFirstChars_none_of_not_mem hq))

theorem pySliceTo_nonneg {α : Type} (l : List α) {k : Int} (h : 0 ≤ k) :
    pySliceTo l k = l.take k.toNat := by
  unfold pySliceTo; rw [if_pos h]

theorem fgBase_ne_nil (L : List String) :
    (if fgRawBullets L = [] then [NO_HEADLINES] else fgRawBullets L) ≠ [] := by
  split
  · simp
  · assumption

theorem fgRawBullets_second {s : String} {n : Int} (h : pyLines s ≠ [])
    (hp : pyStartsWith (fgPrice (pyLines s)) "- " = false)
    (hnd : ∀ b ∈ fgKept (pyLines s) n, splitFirstChars " - ".data b.data = none) :
    fgRawBullets (pyLines (format_guard s n)) = fgKept (pyLines s) n := by
  rw [pyLines_format_guard n h]
  unfold fgRawBullets
  rw [filter_dash_second hp (fun x hx => by
    obtain ⟨b, _, rfl⟩ := List.mem_map.mp hx
    exact ⟨b, rfl⟩)]
  rw [List.map_map]
  have : ∀ b ∈ fgKept (pyLines s) n, (normBullet ∘ (fun b => "- " ++ b)) b = id b := by
    intro b hb
    have hg := goodKept hb
    exact normBullet_dash_eq hg.1 (hnd b hb) hg.2
  rw [List.map_congr_left this, List.map_id]

theorem pySliceTo_idem {α : Type} (l : List α) {k : Int} (h : 0 ≤ k) :
    pySliceTo (pySliceTo l k) k = pySliceTo l k := by
  simp only [pySliceTo_nonneg _ h]
  rw [List.take_take, Nat.min_self]

theorem fgKept_second {s : String} {n : Int} (hn : 0 ≤ n) (h : pyLines s ≠ [])
    (hp : pyStartsWith (fgPrice (pyLines s)) "- " = false)
    (hnd : ∀ b ∈ fgKept (pyLines s) n, splitFirstChars " - ".data b.data = none) :
    fgKept (pyLines (format_guard s n)) n = fgKept (pyLines s) n := by
  have hraw := fgRawBullets_second h hp hnd
  have hfold : fgKept (pyLines (format_guard s n)) n
      = pySliceTo (if fgKept (pyLines s) n = [] then [NO_HEADLINES]
          else fgKept (pyLines s) n) n := by
    rw [fgKept, hraw]
  rw [hfold]
  by_cases hK : fgKept (pyLines s) n = []
  · rw [if_pos hK, hK]
    have hbase := fgBase_ne_nil (pyLines s)
    have hK2 := hK
    rw [fgKept, pySliceTo_nonneg _ hn] at hK2
    rcases List.take_eq_nil_iff.mp hK2 with h0 | h0
    · rw [pySliceTo_nonneg _ hn, h0, List.take_zero]
    · exact absurd h0 hbase
  · rw [if_neg hK]
    have hKdef : fgKept (pyLines s) n = pySliceTo (if fgRawBullets (pyLines s) = []
        then [NO_HEADLINES] else fgRawBullets (pyLines s)) n := rfl
    rw [hKdef, pySliceTo_idem _ hn]

/-! ## Lemmas for the structured projection round trip -/

theorem jsonHeadline_dash {b : String} (hg : GoodLine b) (hp : partsStripped b = true) :
    ∃ hl : Headline, jsonHeadline ("- " ++ b) = some hl ∧ headlineLine hl = "- " ++ b := by
  have hjs : jsonHeadline ("- " ++ b)
      = match splitFirstChars " – ".data b.data with
        | some (t, h) => some ⟨pyStrip ⟨t⟩, pyStrip ⟨h⟩⟩
        | none => some ⟨b, pyStrip ""⟩ := by
    unfold jsonHeadline
    rw [if_pos (pyStartsWith_dash b)]
    simp only [strDrop_dash, hg.1]
  cases hsp : splitFirstChars " – ".data b.data with
  | none =>
    refine ⟨Headline.mk b "", ?_, ?_⟩
    · rw [hjs, hsp]
      rfl
    · unfold headlineLine
      simp
  | some th =>
    obtain ⟨t, hh⟩ := th
    unfold partsStripped at hp
    rw [hsp] at hp
    simp only [Bool.and_eq_true, decide_eq_true_eq] at hp
    have hsound := splitFirstChars_sound hsp
    have hhne : hh ≠ [] := by
      rintro rfl
      have hlast : b.data.getLast? = some ' ' := by
        rw [hsound, List.append_nil, List.getLast?_append_of_ne_nil _ (by simp)]
        rfl
      exact absurd (good_getLast_not_space hg ' ' hlast) (by simp [isPySpace])
    refine ⟨Headline.mk (String.mk t) (String.mk hh), ?_, ?_⟩
    · rw [hjs, hsp]
      have ht1 : pyStrip (String.mk t) = String.mk t := by
        unfold pyStrip
        rw [show (String.mk t).data = t from rfl, hp.1]
      have hh1 : pyStrip (String.mk hh) = String.mk hh := by
        unfold pyStrip
        rw [show (String.mk hh).data = hh from rfl, hp.2]
      show some (Headline.mk (pyStrip (String.mk t)) (pyStrip (String.mk hh)))
          = some (Headline.mk (String.mk t) (String.mk hh))
      rw [ht1, hh1]
    · unfold headlineLine
      rw [if_neg (fun h0 => hhne (congrArg String.data h0))]
      show "- " ++ (String.mk t ++ " – " ++ String.mk hh) = "- " ++ b
      apply congrArg (fun z => "- " ++ z)
      apply string_eq_of_data
      rw [data_append, data_append, hsound]

theorem filterMap_jsonHeadline_map_dash {K : List String}
    (hgood : ∀ b ∈ K, GoodLine b) (hparts : ∀ b ∈ K, partsStripped b = true) :
    ((K.map (fun b => "- " ++ b)).filterMap jsonHeadline).map headlineLine
      = K.map (fun b => "- " ++ b) := by
  induction K with
  | nil => rfl
  | cons b bs ih =>
    obtain ⟨hl, h1, h2⟩ := jsonHeadline_dash (hgood b (List.mem_cons_self b bs))
      (hparts b (List.mem_cons_self b bs))
    rw [List.map_cons, List.filterMap_cons_some h1, List.map_cons, h2,
      ih (fun x hx => hgood x (List.mem_cons_of_mem b hx))
        (fun x hx => hparts x (List.mem_cons_of_mem b hx))]

theorem reflatten_to_json {o P : String} {K : List String}
    (hL : pyLines o = P :: K.map (fun b => "- " ++ b))
    (hgood : ∀ b ∈ K, GoodLine b) (hparts : ∀ b ∈ K, partsStripped b = true) :
    reflatten (to_json_struct o) = joinNL (P :: K.map (fun b => "- " ++ b)) := by
  have hprice : (to_json_struct o).price = P := by
    simp [to_json_struct, hL]
  have hheads : (to_json_struct o).headlines
      = (K.map (fun b => "- " ++ b)).filterMap jsonHeadline := by
    simp [to_json_struct, hL]
  unfold reflatten
  rw [hprice, hheads, filterMap_jsonHeadline_map_dash hgood hparts]

theorem firstLine_joinNL {L : List String}
    (h : ∀ x ∈ L, x ≠ "" ∧ noLB x.data) :
    firstLine (joinNL L) = L.headD "" := by
  unfold firstLine
  rw [pySplitlines_joinNL h]

/-! ## Lemmas for the salvage extraction -/

theorem takeWhile_nb_replaceFuel (fuel : Nat) (cs : List Char) :
    (replaceFuel ['\r', '\n'] ['\n'] fuel cs).takeWhile (fun c => !(c = '\n' || c = '\r'))
      = cs.takeWhile (fun c => !(c = '\n' || c = '\r')) := by
  induction fuel generalizing cs with
  | zero => rfl
  | succ n ih =>
    cases cs with
    | nil => rfl
    | cons c rest =>
      rw [replaceFuel]
      by_cases hp : startsWithChars ['\r', '\n'] (c :: rest) = true
      · rw [if_pos hp]
        have hc : c = '\r' := by
          simp only [startsWithChars, Bool.and_eq_true, decide_eq_true_eq] at hp
          exact hp.1.symm
        subst hc
        rw [List.singleton_append,
          List.takeWhile_cons_of_neg (by simp), List.takeWhile_cons_of_neg (by simp)]
      · rw [if_neg hp]
        by_cases hnb : (!(c = '\n' || c = '\r')) = true
        · rw [@List.takeWhile_cons_of_pos _ (fun c => !(c = '\n' || c = '\r')) c _ hnb,
            @List.takeWhile_cons_of_pos _ (fun c => !(c = '\n' || c = '\r')) c _ hnb, ih]
        · rw [List.takeWhile_cons_of_neg (by simpa using hnb),
            List.takeWhile_cons_of_neg (by simpa using hnb)]

theorem pySplitlines_head {cs : List Char} (h : cs ≠ []) :
    ∃ tl, pySplitlines (String.mk cs) = String.mk (upToLineBreak cs) :: tl := by
  have hcoll : replaceChars ['\r', '\n'] ['\n'] cs ≠ [] :=
    replaceFuel_ne_nil _ (by simp) h
  have hhead := @pySplitlinesAux_head
    (replaceChars ['\r', '\n'] ['\n'] cs) [] (by simp [hcoll])
  cases haux : pySplitlinesAux (replaceChars ['\r', '\n'] ['\n'] cs) [] with
  | nil => rw [haux] at hhead; simp at hhead
  | cons y ys =>
    rw [haux] at hhead
    simp only [List.head?_cons, Option.some.injEq, List.reverse_nil,
      List.nil_append] at hhead
    refine ⟨ys.map String.mk, ?_⟩
    show (pySplitlinesAux (replaceChars ['\r', '\n'] ['\n'] cs) []).map String.mk = _
    rw [haux, List.map_cons]
    have hy : y = upToLineBreak cs := by
      rw [hhead]
      exact takeWhile_nb_replaceFuel cs.length cs
    rw [hy]

theorem stripChars_dropWhile (l : List Char) :
    stripChars (l.dropWhile isPySpace) = stripChars l := by
  unfold stripChars
  rw [dropWhile_eq_self_of_head (fun c hc => head?_dropWhile_false hc)]

theorem stripChars_ne_nil_of_dropWhile {rest : List Char}
    (h : rest.dropWhile isPySpace ≠ []) : stripChars rest ≠ [] := by
  intro h0
  rw [stripChars_eq_nil_iff] at h0
  exact h (List.dropWhile_eq_nil_iff.mpr (fun x hx => h0 x hx))

theorem try_extract_final_some {t : String} {pre rest : List Char}
    (h : splitFirstChars FINAL_MARKER.data t.data = some (pre, rest))
    (h2 : rest.dropWhile isPySpace ≠ []) :
    try_extract_final t
      = TryResult.ok (some (pyStrip (String.mk (upToLineBreak (stripChars rest))))) := by
  have hred : try_extract_final t
      = match rest.dropWhile isPySpace with
        | [] => if rest = [] then TryResult.ok none else TryResult.indexError
        | _ :: _ =>
          match pySplitlines ⟨stripChars rest⟩ with
          | [] => TryResult.indexError
          | first :: _ => TryResult.ok (some (pyStrip first)) := by
    unfold try_extract_final
    rw [h]
  cases hd : rest.dropWhile isPySpace with
  | nil => exact absurd hd h2
  | cons c cs =>
    obtain ⟨tl, htl⟩ := pySplitlines_head (stripChars_ne_nil_of_dropWhile h2)
    rw [hred, hd, htl]

theorem try_extract_final_none {u : String}
    (h : splitFirstChars FINAL_MARKER.data u.data = none) :
    try_extract_final u = TryResult.ok none := by
  unfold try_extract_final
  rw [h]

/-! ## The specification's claims -/

/-- Claim C1, counterexample: `format_guard` is not idempotent on every input.
On `"- x"` — whose only line is a bullet, so the fallback price line itself
starts with `"- "` — with `max_bullets = 2`, one application yields
`"- x\n- x"`, and a second application collects the price line as a further
bullet, yielding `"- x\n- x\n- x"`. -/
theorem c1_counterexample :
    format_guard "- x" 2 = "- x\n- x"
      ∧ format_guard (format_guard "- x" 2) 2 = "- x\n- x\n- x"
      ∧ ("- x\n- x\n- x" : String) ≠ "- x\n- x" :=
  ⟨by decide, by decide, by decide⟩

/-- Claim C1 (amended): `format_guard` is idempotent provided `max_bullets` is
non-negative, the selected price line does not itself begin with `"- "`, and no
kept bullet of the first pass still contains a `" - "` occurrence (Python's
non-overlapping replacement can leave one behind, e.g. in `"a - - b"`). -/
theorem c1_format_guard_idempotent (s : String) (n : Int) (hn : 0 ≤ n)
    (hp : pyStartsWith (fgPrice (pyLines s)) "- " = false)
    (hb : ∀ b ∈ fgKept (pyLines s) n, containsSub b " - " = false) :
    format_guard (format_guard s n) n = format_guard s n := by
  by_cases h : pyLines s = []
  · rw [format_guard_of_no_lines n h, format_guard_of_no_lines n h]
  · have hnd : ∀ b ∈ fgKept (pyLines s) n,
        splitFirstChars " - ".data b.data = none := by
      intro b hbk
      have h2 := hb b hbk
      unfold containsSub at h2
      cases hsp : splitFirstChars " - ".data b.data with
      | none => rfl
      | some ab => rw [hsp] at h2; simp at h2
    have hL2 : pyLines (format_guard s n) ≠ [] := by
      rw [pyLines_format_guard n h]; simp
    rw [format_guard_eq_joinNL n hL2, fgKept_second hn h hp hnd]
    have hpr : fgPrice (pyLines (format_guard s n)) = fgPrice (pyLines s) := by
      rw [pyLines_format_guard n h]
      exact fgPrice_second (fun x hx => by
        obtain ⟨b, _, rfl⟩ := List.mem_map.mp hx
        exact ⟨b, rfl⟩)
    rw [hpr, ← format_guard_eq_joinNL n h]

/-- Witness for the amended C1 at a concrete input. -/
theorem c1_witness :
    (0 ≤ (2 : Int)
      ∧ pyStartsWith (fgPrice (pyLines "$1\n- a – b")) "- " = false
      ∧ ∀ b ∈ fgKept (pyLines "$1\n- a – b") 2, containsSub b " - " = false)
    ∧ format_guard (format_guard "$1\n- a – b" 2) 2 = format_guard "$1\n- a – b" 2 :=
  ⟨⟨by decide, by decide, by decide⟩,
    c1_format_guard_idempotent "$1\n- a – b" 2 (by decide) (by decide) (by decide)⟩

/-- Claim C2, counterexample: projecting with `to_json` and re-flattening is
lossy when a bullet carries extra whitespace around the en-dash separator.
On `"$1\n- a  – b"` (two spaces before the dash) `format_guard` keeps the
bullet verbatim, but the projection strips title and host, so re-flattening
gives `"$1\n- a – b"`. -/
theorem c2_counterexample :
    format_guard "$1\n- a  – b" 4 = "$1\n- a  – b"
      ∧ reflatten (to_json_struct (format_guard "$1\n- a  – b" 4)) = "$1\n- a – b"
      ∧ ("$1\n- a – b" : String) ≠ "$1\n- a  – b" :=
  ⟨by decide, by decide, by decide⟩

/-- Claim C2 (amended): the round trip holds for every input with at least one
trimmed non-empty line whose kept bullets, when they contain the en-dash
separator, carry no extra whitespace around its first occurrence. -/
theorem c2_round_trip (x : String) (n : Int) (h0 : pyLines x ≠ [])
    (h1 : ∀ b ∈ fgKept (pyLines x) n, partsStripped b = true) :
    reflatten (to_json_struct (format_guard x n)) = format_guard x n := by
  have hLo := pyLines_format_guard n h0
  rw [reflatten_to_json hLo (fun b hb => (goodKept hb).1) h1,
    ← format_guard_eq_joinNL n h0]

/-- Witness for the amended C2 at a concrete input. -/
theorem c2_witness :
    (pyLines "$1\n- a – b\n- plain" ≠ []
      ∧ ∀ b ∈ fgKept (pyLines "$1\n- a – b\n- plain") 4, partsStripped b = true)
    ∧ reflatten (to_json_struct (format_guard "$1\n- a – b\n- plain" 4))
        = format_guard "$1\n- a – b\n- plain" 4 :=
  ⟨⟨by decide, by decide⟩, c2_round_trip "$1\n- a – b\n- plain" 4 (by decide) (by decide)⟩

/-- Claim C3, counterexample: for a negative `max_bullets` the bullet count is
not bounded by `max_bullets`: Python's slice `bullets[:-1]` keeps one of the
two bullets of `"$1\n- a\n- b"`, and `1 ≤ -1` is false. -/
theorem c3_counterexample :
    format_guard "$1\n- a\n- b" (-1) = "$1\n- a"
      ∧ (∃ l ∈ pyLines "$1\n- a\n- b", pyStartsWith l "- " = true)
      ∧ ¬(((pyLines (format_guard "$1\n- a\n- b" (-1))).length : Int) - 1 ≤ -1) :=
  ⟨by decide, by decide, by decide⟩

/-- Claim C3 (amended): for every input with at least one dash-prefixed trimmed
line and every `max_bullets ≥ 0`, the number of kept bullets is at most
`max_bullets` and never negative, and the output is exactly one price line
followed by the dash-prefixed kept bullets, newline-separated. -/
theorem c3_output_shape (s : String) (n : Int)
    (h1 : ∃ l ∈ pyLines s, pyStartsWith l "- " = true) (hn : 0 ≤ n) :
    ((fgKept (pyLines s) n).length : Int) ≤ n
      ∧ 0 ≤ ((fgKept (pyLines s) n).length : Int)
      ∧ pyLines (format_guard s n)
          = fgPrice (pyLines s) :: (fgKept (pyLines s) n).map (fun b => "- " ++ b)
      ∧ format_guard s n
          = joinNL (fgPrice (pyLines s) :: (fgKept (pyLines s) n).map (fun b => "- " ++ b)) := by
  obtain ⟨l, hl, _⟩ := h1
  have hL : pyLines s ≠ [] := fun h0 => by rw [h0] at hl; simp at hl
  refine ⟨?_, by positivity, pyLines_format_guard n hL, format_guard_eq_joinNL n hL⟩
  have hkept : fgKept (pyLines s) n
      = (if fgRawBullets (pyLines s) = [] then [NO_HEADLINES]
          else fgRawBullets (pyLines s)).take n.toNat := by
    rw [fgKept, pySliceTo_nonneg _ hn]
  rw [hkept]
  calc (((if fgRawBullets (pyLines s) = [] then [NO_HEADLINES]
        else fgRawBullets (pyLines s)).take n.toNat).length : Int)
      ≤ (n.toNat : Int) := by exact_mod_cast List.length_take_le _ _
    _ = n := Int.toNat_of_nonneg hn

/-- Witness for the amended C3 at a concrete input. -/
theorem c3_witness :
    ((∃ l ∈ pyLines "$9.99\n- a\n- b\n- c", pyStartsWith l "- " = true) ∧ 0 ≤ (2 : Int))
    ∧ ((fgKept (pyLines "$9.99\n- a\n- b\n- c") 2).length : Int) ≤ 2
    ∧ 0 ≤ ((fgKept (pyLines "$9.99\n- a\n- b\n- c") 2).length : Int)
    ∧ pyLines (format_guard "$9.99\n- a\n- b\n- c" 2)
        = fgPrice (pyLines "$9.99\n- a\n- b\n- c")
          :: (fgKept (pyLines "$9.99\n- a\n- b\n- c") 2).map (fun b => "- " ++ b)
    ∧ format_guard "$9.99\n- a\n- b\n- c" 2
        = joinNL (fgPrice (pyLines "$9.99\n- a\n- b\n- c")
          :: (fgKept (pyLines "$9.99\n- a\n- b\n- c") 2).map (fun b => "- " ++ b)) :=
  ⟨⟨by decide, by decide⟩, c3_output_shape "$9.99\n- a\n- b\n- c" 2 (by decide) (by decide)⟩

/-- Claim C4, counterexample: with `max_bullets = 0` the sentinel list is
truncated away, so the output of `format_guard "x" 0` has no bullet at all
even though the input has a non-empty trimmed line and no dash-prefixed line. -/
theorem c4_counterexample :
    format_guard "x" 0 = "x"
      ∧ pyLines "x" ≠ []
      ∧ (∀ l ∈ pyLines "x", pyStartsWith l "- " = false)
      ∧ (pyLines (format_guard "x" 0)).filter (fun l => pyStartsWith l "- ") = [] :=
  ⟨by decide, by decide, by decide, by decide⟩

/-- Claim C4 (amended): for every input with at least one trimmed non-empty
line, none beginning with `"- "`, and every `max_bullets ≥ 1`, the output is
the price line followed by exactly the single sentinel bullet. -/
theorem c4_sentinel (s : String) (n : Int) (h1 : pyLines s ≠ [])
    (h2 : ∀ l ∈ pyLines s, pyStartsWith l "- " = false) (hn : 1 ≤ n) :
    pyLines (format_guard s n) = [fgPrice (pyLines s), "- " ++ NO_HEADLINES]
      ∧ format_guard s n = joinNL [fgPrice (pyLines s), "- " ++ NO_HEADLINES] := by
  have hraw : fgRawBullets (pyLines s) = [] := by
    unfold fgRawBullets
    rw [List.filter_eq_nil_iff.mpr (fun l hl => by simp [h2 l hl])]
    rfl
  have hkept : fgKept (pyLines s) n = [NO_HEADLINES] := by
    rw [fgKept, hraw, if_pos rfl, pySliceTo_nonneg _ (le_trans (by decide) hn)]
    apply List.take_of_length_le
    simp only [List.length_singleton]
    omega
  have hshape := pyLines_format_guard n h1
  rw [hkept] at hshape
  constructor
  · rw [hshape]; rfl
  · rw [format_guard_eq_joinNL n h1, hkept]; rfl

/-- Witness for the amended C4 at a concrete input. -/
theorem c4_witness :
    (pyLines "hello\nworld" ≠ []
      ∧ (∀ l ∈ pyLines "hello\nworld", pyStartsWith l "- " = false)
      ∧ 1 ≤ (4 : Int))
    ∧ pyLines (format_guard "hello\nworld" 4)
        = [fgPrice (pyLines "hello\nworld"), "- " ++ NO_HEADLINES]
    ∧ format_guard "hello\nworld" 4
        = joinNL [fgPrice (pyLines "hello\nworld"), "- " ++ NO_HEADLINES] :=
  ⟨⟨by decide, by decide, by decide⟩,
    c4_sentinel "hello\nworld" 4 (by decide) (by decide) (by decide)⟩

/-- Claim C5 (confirmed): for every input with at least one trimmed non-empty
line — the reading of "non-empty input" under which the claim's described
object exists — the first line of the output is the first trimmed non-empty
input line matching `PRICE_RE`, or the first trimmed non-empty input line
verbatim when none matches, for every `max_bullets`. -/
theorem c5_price_selection (s : String) (n : Int) (h : pyLines s ≠ []) :
    firstLine (format_guard s n)
      = ((pyLines s).find? priceMatch).getD ((pyLines s).headD "") := by
  have hgood : ∀ x ∈ fgPrice (pyLines s)
      :: (fgKept (pyLines s) n).map (fun b => "- " ++ b), x ≠ "" ∧ noLB x.data := by
    intro x hx
    rcases List.mem_cons.mp hx with h1 | h1
    · subst h1
      have hg := goodLine_of_mem_pyLines (fgPrice_mem h)
      exact ⟨hg.2.1, hg.2.2⟩
    · obtain ⟨b, hb, rfl⟩ := List.mem_map.mp h1
      have hg := goodLine_dash_append (goodKept hb).1
      exact ⟨hg.2.1, hg.2.2⟩
  rw [format_guard_eq_joinNL n h, firstLine_joinNL hgood]
  rfl

/-- Witness for C5 at a concrete input (the second line matches `PRICE_RE`). -/
theorem c5_witness :
    pyLines "noise\n$12.34\n- t – h" ≠ []
      ∧ firstLine (format_guard "noise\n$12.34\n- t – h" 4)
          = ((pyLines "noise\n$12.34\n- t – h").find? priceMatch).getD
              ((pyLines "noise\n$12.34\n- t – h").headD "") :=
  ⟨by decide, c5_price_selection "noise\n$12.34\n- t – h" 4 (by decide)⟩

/-- Claim C6, counterexample: the claim omits the inner `strip()` after the
prefix removal (`l[2:].strip()`).  On the line `"-  x"` (two spaces) the code's
bullet is `"x"`, while stripping only the two-character prefix and applying the
two replacements would give `" x"`. -/
theorem c6_counterexample :
    pyLines (format_guard "$1\n-  x" 4) = ["$1", "- x"]
      ∧ ((pyLines "$1\n-  x").filter (fun l => pyStartsWith l "- ")).map
          (fun l => pyReplace (pyReplace (strDrop l 2) " - " " – ") "’" "'") = [" x"]
      ∧ (["$1", "- x"] : List String) ≠ ["$1", "- " ++ " x"] :=
  ⟨by decide, by decide, by decide⟩

/-- Claim C6 (amended): `format_guard` collects exactly the trimmed lines
beginning with `"- "` in their original relative order, takes each line after
its first two characters and trims it, replaces `" - "` occurrences
left-to-right with `" – "` and every `’` with `'`; when at least one bullet is
collected and `max_bullets` does not truncate, these rewritten bullets are
exactly the output's dash-prefixed lines. -/
theorem c6_bullet_extraction (s : String) (n : Int)
    (hB : ((pyLines s).filter (fun l => pyStartsWith l "- ")).map
        (fun l => pyReplace (pyReplace (pyStrip (strDrop l 2)) " - " " – ") "’" "'") ≠ [])
    (hn : ((((pyLines s).filter (fun l => pyStartsWith l "- ")).map
        (fun l => pyReplace (pyReplace (pyStrip (strDrop l 2)) " - " " – ") "’" "'")).length : Int) ≤ n) :
    pyLines (format_guard s n)
      = fgPrice (pyLines s)
        :: (((pyLines s).filter (fun l => pyStartsWith l "- ")).map
            (fun l => pyReplace (pyReplace (pyStrip (strDrop l 2)) " - " " – ") "’" "'")).map
          (fun b => "- " ++ b) := by
  have hBraw : fgRawBullets (pyLines s) ≠ [] := hB
  have hn' : ((fgRawBullets (pyLines s)).length : Int) ≤ n := hn
  have hL : pyLines s ≠ [] := by
    intro h0
    apply hBraw
    unfold fgRawBullets
    rw [h0]
    rfl
  have hpos : 0 < (fgRawBullets (pyLines s)).length := List.length_pos.mpr hBraw
  have hkept : fgKept (pyLines s) n = fgRawBullets (pyLines s) := by
    rw [fgKept, if_neg hBraw, pySliceTo_nonneg _ (by omega)]
    apply List.take_of_length_le
    omega
  have hout := pyLines_format_guard n hL
  rw [hkept] at hout
  exact hout

/-- Witness for the amended C6 at a concrete input exercising both rewrites. -/
theorem c6_witness :
    (((pyLines "$9\n- A’s x - y\n- B").filter (fun l => pyStartsWith l "- ")).map
        (fun l => pyReplace (pyReplace (pyStrip (strDrop l 2)) " - " " – ") "’" "'") ≠ []
      ∧ ((((pyLines "$9\n- A’s x - y\n- B").filter (fun l => pyStartsWith l "- ")).map
          (fun l => pyReplace (pyReplace (pyStrip (strDrop l 2)) " - " " – ") "’" "'")).length : Int) ≤ 5)
    ∧ pyLines (format_guard "$9\n- A’s x - y\n- B" 5)
        = fgPrice (pyLines "$9\n- A’s x - y\n- B")
          :: (((pyLines "$9\n- A’s x - y\n- B").filter (fun l => pyStartsWith l "- ")).map
              (fun l => pyReplace (pyReplace (pyStrip (strDrop l 2)) " - " " – ") "’" "'")).map
            (fun b => "- " ++ b) :=
  ⟨⟨by decide, by decide⟩, c6_bullet_extraction "$9\n- A’s x - y\n- B" 5 (by decide) (by decide)⟩

/-- Claim C7, counterexample: with `re.S`, the pattern's `\s*` crosses line
breaks, so on `"Final Answer:\n42"` the function returns `"42"` — not the
stripped text between the marker and the first subsequent line break, which is
empty. -/
theorem c7_counterexample :
    try_extract_final "Final Answer:\n42" = TryResult.ok (some "42")
      ∧ pyStrip (String.mk (upToLineBreak ("\n42" : String).data)) = ""
      ∧ ("42" : String) ≠ "" :=
  ⟨by decide, by decide, by decide⟩

/-- Claim C7 (amended): when `"Final Answer:"` occurs and the remainder after
its first occurrence contains a non-whitespace character, `try_extract_final`
returns Some of the first line of the stripped remainder, stripped — skipping
any whitespace (including line breaks) after the marker; when the marker does
not occur (which is also how the regex treats a marker at the very end of the
text), it returns None.  A remainder of only whitespace instead raises
`IndexError` (see `try_extract_final`). -/
theorem c7_salvage (t : String) (pre rest : List Char)
    (h : splitFirstChars FINAL_MARKER.data t.data = some (pre, rest))
    (h2 : rest.dropWhile isPySpace ≠ []) :
    try_extract_final t
        = TryResult.ok (some (pyStrip (String.mk (upToLineBreak (stripChars rest)))))
      ∧ ∀ u : String, splitFirstChars FINAL_MARKER.data u.data = none →
          try_extract_final u = TryResult.ok none :=
  ⟨try_extract_final_some h h2, fun _ hu => try_extract_final_none hu⟩

/-- Witness for the amended C7, also checking the claim's `"42"` instance. -/
theorem c7_witness :
    (splitFirstChars FINAL_MARKER.data ("oops Final Answer: 42\nmore" : String).data
        = some ("oops ".data, " 42\nmore".data)
      ∧ (" 42\nmore" : String).data.dropWhile isPySpace ≠ [])
    ∧ try_extract_final "oops Final Answer: 42\nmore" = TryResult.ok (some "42") := by
  refine ⟨⟨by decide, by decide⟩, ?_⟩
  have h := (c7_salvage "oops Final Answer: 42\nmore" ("oops ".data) (" 42\nmore".data)
    (by decide) (by decide)).1
  rw [h]
  decide

/-- Claim C8 (confirmed): the retry block invokes the underlying call at most
twice; a rate-limited first call forces exactly one retry (two calls total);
a second rate-limited call propagates unrecovered out of the handler; and a
first call that is not rate-limited is never retried. -/
theorem c8_retry_bound (call : Nat → CallResult) :
    (mainRetry call).1 ≤ 2
      ∧ (call 0 = CallResult.rateLimited → (mainRetry call).1 = 2)
      ∧ (call 0 = CallResult.rateLimited → call 1 = CallResult.rateLimited →
          (mainRetry call).2 = MainOutcome.uncaughtRateLimit)
      ∧ (call 0 ≠ CallResult.rateLimited → (mainRetry call).1 = 1) := by
  refine ⟨?_, ?_, ?_, ?_⟩
  · unfold mainRetry
    cases h0 : call 0 with
    | ok o => simp
    | rateLimited => cases h1 : call 1 <;> simp
    | err m =>
      cases hte : try_extract_final m with
      | ok os => cases os <;> simp [hte]
      | indexError => simp [hte]
  · intro hc0
    unfold mainRetry
    rw [hc0]
    cases h1 : call 1 <;> simp
  · intro hc0 hc1
    unfold mainRetry
    rw [hc0, hc1]
  · intro hc0
    unfold mainRetry
    cases h0 : call 0 with
    | ok o => simp
    | rateLimited => exact absurd h0 hc0
    | err m =>
      cases hte : try_extract_final m with
      | ok os => cases os <;> simp [hte]
      | indexError => simp [hte]

/-- Witness for C8 with both invocations rate-limited. -/
theorem c8_witness :
    (mainRetry (fun _ => CallResult.rateLimited)).1 = 2
      ∧ (mainRetry (fun _ => CallResult.rateLimited)).2 = MainOutcome.uncaughtRateLimit := by
  have h := c8_retry_bound (fun _ => CallResult.rateLimited)
  exact ⟨h.2.1 rfl, h.2.2.1 rfl rfl⟩

/-- Claim C9 (confirmed): when the input contains the `----Final Result----`
marker, the launcher's `format_guard` returns the text before the marker's
first occurrence unchanged, then the marker, then `_format_final_block` of
only the text after the marker; the input is exactly that decomposition. -/
theorem c9_marker_frame (s : String) (n : Int) (head tail : List Char)
    (h : splitFirstChars Demo.MARKER.data s.data = some (head, tail)) :
    Demo.format_guard s n
        = String.mk head ++ Demo.MARKER ++ Demo._format_final_block (String.mk tail) n
      ∧ s = String.mk head ++ Demo.MARKER ++ String.mk tail := by
  have hsound := splitFirstChars_sound h
  have hne : ¬(pyStrip s = "") := by
    intro h0
    have h0' : stripChars s.data = [] := congrArg String.data h0
    rw [stripChars_eq_nil_iff] at h0'
    have hmem : '-' ∈ s.data := by
      rw [hsound]
      exact List.mem_append_left tail
        (List.mem_append_right head (by decide : '-' ∈ Demo.MARKER.data))
    have := h0' '-' hmem
    simp [isPySpace] at this
  constructor
  · unfold Demo.format_guard
    rw [if_neg hne, h]
  · exact string_eq_of_data (by rw [data_append, data_append]; exact hsound)

/-- Witness for C9 at a concrete input with text on both sides of the marker. -/
theorem c9_witness :
    splitFirstChars Demo.MARKER.data ("log\n----Final Result----\n$1\n- t – h" : String).data
        = some ("log\n".data, "\n$1\n- t – h".data)
      ∧ Demo.format_guard "log\n----Final Result----\n$1\n- t – h" 4
          = String.mk "log\n".data ++ Demo.MARKER
              ++ Demo._format_final_block (String.mk "\n$1\n- t – h".data) 4 :=
  ⟨by decide,
    (c9_marker_frame "log\n----Final Result----\n$1\n- t – h" 4 "log\n".data
      "\n$1\n- t – h".data (by decide)).1⟩

/-- Claim C10, counterexample: on empty or whitespace-only input the
normalizer returns its input unchanged — there is no single documented
empty-result sentinel value it yields. -/
theorem c10_counterexample :
    format_guard " " 4 = " " ∧ format_guard "\t" 4 = "\t"
      ∧ ¬∃ c : String, ∀ s : String, pyStrip s = "" → format_guard s 4 = c := by
  refine ⟨by decide, by decide, ?_⟩
  rintro ⟨c, hc⟩
  have h1 := hc " " (by decide)
  have h2 := hc "\t" (by decide)
  rw [show format_guard " " 4 = " " by decide] at h1
  rw [show format_guard "\t" 4 = "\t" by decide] at h2
  rw [← h1] at h2
  exact absurd h2 (by decide)

/-- Claim C10 (amended): empty or whitespace-only input is passed through
unchanged by both normalizers; the documented sentinel `"\n\n(No output)\n"`
arises only in the launcher's `_format_final_block` when the block has no
trimmed non-empty line. -/
theorem c10_empty_passthrough (s b : String) (n m : Int)
    (h : pyStrip s = "") (h2 : pyLines b = []) :
    format_guard s n = s ∧ Demo.format_guard s n = s
      ∧ Demo._format_final_block b m = "\n\n(No output)\n" := by
  refine ⟨?_, ?_, ?_⟩
  · apply format_guard_of_no_lines
    unfold pyLines
    rw [h]
    rfl
  · unfold Demo.format_guard
    rw [if_pos h]
  · simp only [Demo._format_final_block]
    rw [if_pos h2]

/-- Witness for the amended C10 at concrete whitespace-only inputs. -/
theorem c10_witness :
    (pyStrip "  " = "" ∧ pyLines "\n" = [])
      ∧ format_guard "  " 3 = "  " ∧ Demo.format_guard "  " 3 = "  "
      ∧ Demo._format_final_block "\n" 3 = "\n\n(No output)\n" :=
  ⟨⟨by decide, by decide⟩, c10_empty_passthrough "  " "\n" 3 3 (by decide) (by decide)⟩
